import Mathlib

set_option maxRecDepth 1024

/-!
Verification of the xrp-tracker market-snapshot pipeline (src/xrp2.py).

Modelling conventions:
* Python strings are modelled as lists of Unicode code points (`List ℕ`);
  `str.strip` / `str.upper` are modelled on the ASCII range, which is the
  range the symbol handling of the program actually exercises.
* Python floats are modelled as exact rationals (`ℚ`); decimal literals of
  the source (`0.236`, `1.1`, ...) become the corresponding rationals.
* A pandas value that is NaN for the first rows of an indicator column is
  modelled as `Option ℚ` being `none`; the NaN comparisons of the source
  (`nan < 30` is `False`, etc.) are reproduced explicitly in the signal
  functions.
* The two network fetches are modelled as an `Env` record holding their
  results; `none` stands for a failed / non-list response.
-/

namespace XrpTracker

/-! ## Symbol normalizer (`clean_symbol`, src/xrp2.py lines 14-19) -/

/-- ASCII model of the whitespace class removed by Python `str.strip`. -/
def pySpace (n : ℕ) : Bool :=
  n = 32 || n = 9 || n = 10 || n = 13 || n = 11 || n = 12

/-- Python `str.strip`: drop leading and trailing whitespace. -/
def pyStrip (s : List ℕ) : List ℕ :=
  ((s.dropWhile pySpace).reverse.dropWhile pySpace).reverse

/-- ASCII model of Python `str.upper` on one code point. -/
def upperCh (n : ℕ) : ℕ :=
  if 97 ≤ n ∧ n ≤ 122 then n - 32 else n

/-- Python `str.upper`. -/
def pyUpper (s : List ℕ) : List ℕ := s.map upperCh

/-- `startsWith pat s`: does `s` start with `pat`? -/
def startsWith : List ℕ → List ℕ → Bool
  | [], _ => true
  | _ :: _, [] => false
  | c :: cs, d :: ds => c = d && startsWith cs ds

/-- Python `pat in s`: does `pat` occur as a contiguous substring of `s`? -/
def containsSub (pat : List ℕ) : List ℕ → Bool
  | [] => startsWith pat []
  | c :: rest => startsWith pat (c :: rest) || containsSub pat rest

/-- Python `s.split(pat)[0]` for non-empty `pat`: the prefix of `s` before
the first occurrence of `pat`. -/
def splitHead (pat : List ℕ) : List ℕ → List ℕ
  | [] => []
  | c :: rest =>
    if startsWith pat (c :: rest) then [] else c :: splitHead pat rest

/-- One iteration of the `for cut in ("USDT", "/")` loop:
`if cut in s: s = s.split(cut)[0]`. -/
def cutTok (pat : List ℕ) (s : List ℕ) : List ℕ :=
  if containsSub pat s then splitHead pat s else s

/-- Code points of `"USDT"`. -/
def usdtTok : List ℕ := [85, 83, 68, 84]

/-- Code points of `"/"`. -/
def slashTok : List ℕ := [47]

/-- Code points of `"XRP"`, the fallback symbol. -/
def xrpTok : List ℕ := [88, 82, 80]

/-- The value of `s` after the loop body of `clean_symbol`: strip,
uppercase, cut at the first occurrence of `"USDT"`, then of `"/"`. -/
def cleanCore (raw : List ℕ) : List ℕ :=
  cutTok slashTok (cutTok usdtTok (pyUpper (pyStrip raw)))

/-- `clean_symbol` (src/xrp2.py lines 14-19): strip, uppercase, cut at the
first occurrence of `"USDT"` then of `"/"`, and fall back to `"XRP"` when
the result is empty (`return s or "XRP"`). -/
def clean_symbol (raw : List ℕ) : List ℕ :=
  if cleanCore raw = [] then xrpTok else cleanCore raw

/-! ### Normalizer lemmas -/

theorem upperCh_fix (n : ℕ) : upperCh (upperCh n) = upperCh n := by
  unfold upperCh
  by_cases h : 97 ≤ n ∧ n ≤ 122
  · rw [if_pos h, if_neg (show ¬ (97 ≤ n - 32 ∧ n - 32 ≤ 122) by omega)]
  · rw [if_neg h, if_neg h]

theorem mem_pyUpper_fix {n : ℕ} {s : List ℕ} (h : n ∈ pyUpper s) :
    upperCh n = n := by
  rcases List.mem_map.1 h with ⟨m, _, rfl⟩
  exact upperCh_fix m

theorem splitHead_append (pat s : List ℕ) :
    ∃ t, splitHead pat s ++ t = s := by
  induction s with
  | nil => exact ⟨[], rfl⟩
  | cons c rest ih =>
    by_cases h : startsWith pat (c :: rest) = true
    · exact ⟨c :: rest, by simp [splitHead, h]⟩
    · rcases ih with ⟨t, ht⟩
      exact ⟨t, by simp [splitHead, h, ht]⟩

theorem startsWith_append (pat r t : List ℕ) (h : startsWith pat r = true) :
    startsWith pat (r ++ t) = true := by
  induction pat generalizing r with
  | nil => simp [startsWith]
  | cons p ps ih =>
    cases r with
    | nil => simp [startsWith] at h
    | cons c cs =>
      simp only [startsWith, Bool.and_eq_true, decide_eq_true_eq] at h
      simp only [List.cons_append, startsWith, Bool.and_eq_true,
        decide_eq_true_eq]
      exact ⟨h.1, ih cs h.2⟩

theorem containsSub_append (pat r t : List ℕ)
    (h : containsSub pat r = true) : containsSub pat (r ++ t) = true := by
  induction r with
  | nil =>
    cases pat with
    | nil =>
      cases t with
      | nil => simpa [containsSub] using h
      | cons d ds => simp [containsSub, startsWith]
    | cons p ps => simp [containsSub, startsWith] at h
  | cons c rest ih =>
    simp only [containsSub, Bool.or_eq_true] at h
    rcases h with h | h
    · simp only [List.cons_append, containsSub, Bool.or_eq_true]
      exact Or.inl (startsWith_append _ _ _ h)
    · simp only [List.cons_append, containsSub, Bool.or_eq_true]
      exact Or.inr (ih h)

theorem containsSub_of_prefix {pat r s : List ℕ}
    (hp : ∃ t, r ++ t = s) (h : containsSub pat s = false) :
    containsSub pat r = false := by
  rcases hp with ⟨t, rfl⟩
  by_contra hc
  rw [Bool.not_eq_false] at hc
  have := containsSub_append pat r t hc
  simp [this] at h

theorem containsSub_splitHead (pat s : List ℕ) (hne : pat ≠ []) :
    containsSub pat (splitHead pat s) = false := by
  induction s with
  | nil =>
    cases pat with
    | nil => exact absurd rfl hne
    | cons p ps => simp [splitHead, containsSub, startsWith]
  | cons c rest ih =>
    by_cases h : startsWith pat (c :: rest) = true
    · have hsplit : splitHead pat (c :: rest) = [] := by
        simp [splitHead, h]
      rw [hsplit]
      cases pat with
      | nil => exact absurd rfl hne
      | cons p ps => simp [containsSub, startsWith]
    · have hsplit : splitHead pat (c :: rest) = c :: splitHead pat rest := by
        simp [splitHead, h]
      rw [hsplit]
      simp only [containsSub, Bool.or_eq_false_iff]
      refine ⟨?_, ih⟩
      by_contra hsw
      rw [Bool.not_eq_false] at hsw
      rcases splitHead_append pat rest with ⟨t, ht⟩
      have : startsWith pat ((c :: splitHead pat rest) ++ t) = true :=
        startsWith_append _ _ _ hsw
      rw [List.cons_append, ht] at this
      exact h this

theorem containsSub_cutTok (pat s : List ℕ) (hne : pat ≠ []) :
    containsSub pat (cutTok pat s) = false := by
  unfold cutTok
  split
  · exact containsSub_splitHead pat s hne
  · next h => exact Bool.eq_false_iff.mpr h

theorem cutTok_append (pat s : List ℕ) : ∃ t, cutTok pat s ++ t = s := by
  unfold cutTok
  split
  · exact splitHead_append pat s
  · exact ⟨[], by simp⟩

theorem cutTok_of_free {pat s : List ℕ} (h : containsSub pat s = false) :
    cutTok pat s = s := by
  unfold cutTok
  simp [h]

theorem containsSub_append_left (pat t r : List ℕ)
    (h : containsSub pat r = true) : containsSub pat (t ++ r) = true := by
  induction t with
  | nil => simpa using h
  | cons c cs ih =>
    simp only [List.cons_append, containsSub, Bool.or_eq_true]
    exact Or.inr ih

theorem containsSub_of_between {pat r s : List ℕ}
    (hinf : ∃ t1 t2, t1 ++ (r ++ t2) = s) (h : containsSub pat s = false) :
    containsSub pat r = false := by
  rcases hinf with ⟨t1, t2, rfl⟩
  by_contra hc
  rw [Bool.not_eq_false] at hc
  have h2 := containsSub_append_left pat t1 (r ++ t2)
    (containsSub_append pat r t2 hc)
  simp [h2] at h

theorem pyStrip_between (s : List ℕ) :
    ∃ t1 t2, t1 ++ (pyStrip s ++ t2) = s := by
  refine ⟨s.takeWhile pySpace,
    ((s.dropWhile pySpace).reverse.takeWhile pySpace).reverse, ?_⟩
  unfold pyStrip
  rw [← List.reverse_append, List.takeWhile_append_dropWhile,
    List.reverse_reverse, List.takeWhile_append_dropWhile]

theorem mem_pyStrip {c : ℕ} {s : List ℕ} (h : c ∈ pyStrip s) : c ∈ s := by
  rcases pyStrip_between s with ⟨t1, t2, hs⟩
  rw [← hs]
  exact List.mem_append_right t1 (List.mem_append_left t2 h)

theorem pyStrip_prefix_dropWhile (s : List ℕ) :
    ∃ t, pyStrip s ++ t = s.dropWhile pySpace := by
  refine ⟨((s.dropWhile pySpace).reverse.takeWhile pySpace).reverse, ?_⟩
  unfold pyStrip
  rw [← List.reverse_append, List.takeWhile_append_dropWhile,
    List.reverse_reverse]

theorem head_dropWhile_false {p : ℕ → Bool} :
    ∀ {l : List ℕ} {d : ℕ} {ds : List ℕ},
      l.dropWhile p = d :: ds → p d = false := by
  intro l
  induction l with
  | nil =>
    intro d ds h
    simp at h
  | cons x xs ih =>
    intro d ds h
    rw [List.dropWhile_cons] at h
    split at h
    · exact ih h
    · next hx =>
      injection h with h1 _
      rw [← h1]
      exact Bool.not_eq_true _ |>.mp hx

theorem pyUpper_of_fix {s : List ℕ}
    (h : ∀ n ∈ s, upperCh n = n) : pyUpper s = s := by
  unfold pyUpper
  rw [List.map_congr_left h]
  simp

theorem clean_symbol_ne_nil (raw : List ℕ) : clean_symbol raw ≠ [] := by
  unfold clean_symbol
  split
  · simp [xrpTok]
  · next h => exact h

theorem clean_symbol_prefix_cases (raw : List ℕ) :
    clean_symbol raw = xrpTok ∨
      ∃ t, clean_symbol raw ++ t = cutTok usdtTok (pyUpper (pyStrip raw)) := by
  unfold clean_symbol
  split
  · exact Or.inl rfl
  · exact Or.inr (cutTok_append slashTok _)

theorem cleanCore_eq (raw : List ℕ) :
    cleanCore raw = cutTok slashTok (cutTok usdtTok (pyUpper (pyStrip raw))) :=
  rfl

theorem clean_symbol_usdt_free (raw : List ℕ) :
    containsSub usdtTok (clean_symbol raw) = false := by
  rcases clean_symbol_prefix_cases raw with h | h
  · rw [h]; decide
  · exact containsSub_of_prefix h
      (containsSub_cutTok usdtTok _ (by decide))

theorem clean_symbol_slash_free (raw : List ℕ) :
    containsSub slashTok (clean_symbol raw) = false := by
  unfold clean_symbol
  split
  · decide
  · rw [cleanCore_eq]
    exact containsSub_cutTok slashTok _ (by decide)

theorem clean_symbol_upper_fix (raw : List ℕ) :
    ∀ n ∈ clean_symbol raw, upperCh n = n := by
  intro n hn
  rcases clean_symbol_prefix_cases raw with h | h
  · rw [h] at hn
    fin_cases hn <;> decide
  · rcases h with ⟨t, ht⟩
    rcases cutTok_append usdtTok (pyUpper (pyStrip raw)) with ⟨t2, ht2⟩
    have h1 : n ∈ cutTok usdtTok (pyUpper (pyStrip raw)) := by
      rw [← ht]; exact List.mem_append_left t hn
    have h2 : n ∈ pyUpper (pyStrip raw) := by
      rw [← ht2]; exact List.mem_append_left t2 h1
    exact mem_pyUpper_fix h2

theorem cleanCore_prefix (raw : List ℕ) :
    ∃ t, cleanCore raw ++ t = pyUpper (pyStrip raw) := by
  rcases cutTok_append slashTok (cutTok usdtTok (pyUpper (pyStrip raw))) with
    ⟨t1, h1⟩
  rcases cutTok_append usdtTok (pyUpper (pyStrip raw)) with ⟨t2, h2⟩
  refine ⟨t1 ++ t2, ?_⟩
  rw [cleanCore_eq, ← List.append_assoc, h1, h2]

theorem upperCh_not_space {d : ℕ} (h : pySpace d = false) :
    pySpace (upperCh d) = false := by
  by_cases hd : 97 ≤ d ∧ d ≤ 122
  · rw [upperCh, if_pos hd]
    simp only [pySpace, Bool.or_eq_false_iff, decide_eq_false_iff_not]
    omega
  · rw [upperCh, if_neg hd]
    exact h

theorem clean_symbol_head_not_space (raw : List ℕ) (c : ℕ) (rest : List ℕ)
    (h : clean_symbol raw = c :: rest) : pySpace c = false := by
  rw [clean_symbol] at h
  split at h
  · rw [xrpTok] at h
    injection h with h1 _
    rw [← h1]
    decide
  · rcases cleanCore_prefix raw with ⟨t, ht⟩
    rw [h] at ht
    have hup : pyUpper (pyStrip raw) = c :: (rest ++ t) := by
      rw [← ht, List.cons_append]
    cases hd : pyStrip raw with
    | nil =>
      rw [pyUpper, hd] at hup
      simp at hup
    | cons d ds =>
      rw [pyUpper, hd, List.map_cons, List.cons.injEq] at hup
      rcases pyStrip_prefix_dropWhile raw with ⟨t2, ht2⟩
      rw [hd] at ht2
      have hdw : raw.dropWhile pySpace = d :: (ds ++ t2) := by
        rw [← ht2, List.cons_append]
      have hdns := head_dropWhile_false hdw
      rw [← hup.1]
      exact upperCh_not_space hdns

theorem clean_symbol_pyStrip_ne_nil (raw : List ℕ) :
    pyStrip (clean_symbol raw) ≠ [] := by
  cases h : clean_symbol raw with
  | nil => exact absurd h (clean_symbol_ne_nil raw)
  | cons c rest =>
    have hc := clean_symbol_head_not_space raw c rest h
    rw [pyStrip]
    intro hcontra
    rw [List.reverse_eq_nil_iff] at hcontra
    have hall := List.dropWhile_eq_nil_iff.1 hcontra
    have hdw : (c :: rest).dropWhile pySpace = c :: rest := by
      rw [List.dropWhile_cons, hc]
      simp
    rw [hdw] at hall
    have : pySpace c = true := hall c (by simp)
    simp [hc] at this

/-- The second application of `clean_symbol` is exactly a strip of the
first output: the output is uppercase-fixed and contains no further
`"USDT"`/`"/"` occurrence, so only the leading `strip` can change it,
and its head is never whitespace, so the stripped output stays non-empty
and the fallback never fires. -/
theorem clean_symbol_second_strip (raw : List ℕ) :
    clean_symbol (clean_symbol raw) = pyStrip (clean_symbol raw) := by
  have hupper : pyUpper (pyStrip (clean_symbol raw)) =
      pyStrip (clean_symbol raw) :=
    pyUpper_of_fix fun n hn => clean_symbol_upper_fix raw n (mem_pyStrip hn)
  have husdt : containsSub usdtTok (pyStrip (clean_symbol raw)) = false :=
    containsSub_of_between (pyStrip_between _) (clean_symbol_usdt_free raw)
  have hslash : containsSub slashTok (pyStrip (clean_symbol raw)) = false :=
    containsSub_of_between (pyStrip_between _) (clean_symbol_slash_free raw)
  have hne := clean_symbol_pyStrip_ne_nil raw
  set x := clean_symbol raw with hx
  show clean_symbol x = pyStrip x
  rw [clean_symbol, cleanCore_eq, hupper, cutTok_of_free husdt,
    cutTok_of_free hslash, if_neg hne]

/-! ## Candle series (src/xrp2.py lines 45-60)

The first six fields of a kline row, parsed to numbers; `time` is in minutes
(the chart uses 1-minute candles and the path projector adds
`pd.Timedelta(minutes=i * 5)`). -/

structure Candle where
  time : ℕ
  openPrice : ℚ
  high : ℚ
  low : ℚ
  close : ℚ
  volume : ℚ
deriving DecidableEq, Repr

/-- Python `l[-n:]`: the trailing window of the last `min n l.length`
elements. -/
def lastN (n : ℕ) (l : List α) : List α := l.drop (l.length - n)

/-! ## Indicators (src/xrp2.py lines 79-88)

The `ta` library computes every constituent as
`series.ewm(span=n, min_periods=n, adjust=False).mean()` (exponential
moving average with `alpha = 2/(n+1)`, seeded with the first value,
leading entries masked as NaN until `n` observations exist); RSI uses
`alpha = 1/14` Wilder smoothing over the clipped close-to-close deltas. -/

/-- One step of `ewm(..., adjust=False).mean()`. -/
def emaStep (a y x : ℚ) : ℚ := (1 - a) * y + a * x

/-- Final value of the exponential moving average of a series (seeded with
its first element, as `adjust=False` does). -/
def emaLast (a : ℚ) : List ℚ → ℚ
  | [] => 0
  | x :: xs => xs.foldl (emaStep a) x

/-- All values of the exponential moving average, index-aligned with the
input series. -/
def emaScan (a : ℚ) : List ℚ → List ℚ
  | [] => []
  | x :: xs => xs.scanl (emaStep a) x

/-- `close.diff(1)` without its leading NaN: the `n-1` close-to-close
deltas. -/
def deltas (l : List ℚ) : List ℚ := List.zipWith (· - ·) l.tail l

/-- `diff.clip(lower=0)`. -/
def gains (l : List ℚ) : List ℚ := (deltas l).map (fun d => max d 0)

/-- `-diff.clip(upper=0)`. -/
def losses (l : List ℚ) : List ℚ := (deltas l).map (fun d => max (-d) 0)

/-- Latest value of `ta.momentum.rsi(close, 14)`.  NaN (series shorter
than 15 candles, or a constant series making the 0/0 relative strength
NaN) is modelled as `none`; a zero loss average with positive gain
average gives RSI 100 as the float division by zero in the code does. -/
def rsiLast (closes : List ℚ) : Option ℚ :=
  if closes.length < 15 then none
  else
    let au := emaLast (1/14) (gains closes)
    let ad := emaLast (1/14) (losses closes)
    if ad = 0 then (if au = 0 then none else some 100)
    else some (100 - 100 / (1 + au / ad))

/-- Latest value of `ta.trend.sma_indicator(close, 20)`: NaN (`none`)
until 20 candles exist, else the mean of the last 20 closes. -/
def smaLast (closes : List ℚ) : Option ℚ :=
  if closes.length < 20 then none
  else some ((lastN 20 closes).sum / 20)

/-- The MACD line series: EMA12 minus EMA26 of the closes, index-aligned
with the input (its first 25 entries are NaN-masked in pandas). -/
def macdSeries (closes : List ℚ) : List ℚ :=
  List.zipWith (· - ·) (emaScan (2/13) closes) (emaScan (2/27) closes)

/-- Latest value of the MACD line (`ta.trend.macd`). -/
def macdLineLast (closes : List ℚ) : ℚ := (macdSeries closes).getLastD 0

/-- Latest value of the MACD signal line (`ta.trend.macd_signal`): EMA9 of
the MACD line.  The pandas `ewm` skips the 25 leading NaN entries of the
MACD column, so the average runs over the defined part of the line. -/
def macdSignalLast (closes : List ℚ) : ℚ :=
  emaLast (2/10) ((macdSeries closes).drop 25)

/-- Latest value of `df["MACD_Hist"] = macd_line - macd_signal`
(src/xrp2.py line 83).  The signal line needs 9 defined MACD values, the
first of which appears at index 25, so the histogram is NaN (`none`)
until 34 candles exist. -/
def macdHistLast (closes : List ℚ) : Option ℚ :=
  if closes.length < 34 then none
  else some (macdLineLast closes - macdSignalLast closes)

/-! ## Signals (src/xrp2.py lines 85-89)

The source compares the latest indicator cell directly; when that cell is
NaN every float comparison is `False`, which the `none` branches below
reproduce (`nan < 30` and `nan > 70` give HOLD, `last > nan` gives SELL,
`nan > 0` gives SELL). -/

/-- Line 86: `"RSI: BUY" if rsi < 30 else "RSI: SELL" if rsi > 70 else
"RSI: HOLD"`. -/
def rsiSig (r : Option ℚ) : String :=
  match r with
  | none => "RSI: HOLD"
  | some v => if v < 30 then "RSI: BUY" else if 70 < v then "RSI: SELL" else "RSI: HOLD"

/-- Line 87: `"SMA: BUY" if last > sma20 else "SMA: SELL"`, where `last`
is the live price (or the latest close as fallback). -/
def smaSig (lastPrice : ℚ) (m : Option ℚ) : String :=
  match m with
  | none => "SMA: SELL"
  | some s => if s < lastPrice then "SMA: BUY" else "SMA: SELL"

/-- Line 88: `"MACD: BUY" if hist > 0 else "MACD: SELL"`. -/
def macdSig (h : Option ℚ) : String :=
  match h with
  | none => "MACD: SELL"
  | some v => if 0 < v then "MACD: BUY" else "MACD: SELL"

/-! ## Fibonacci retracement (src/xrp2.py lines 96-105) -/

/-- The seven labelled levels computed from the trailing 30-candle window:
`hi` is the window High maximum, `lo` the window Low minimum, and each
intermediate level is `hi - diff * pct`; the `"100%"` entry is `hi`
itself.  Emitted in the dict insertion order of the source. -/
def fib (candles : List Candle) : List (String × ℚ) :=
  let sub := lastN 30 candles
  let highs := sub.map Candle.high
  let lows := sub.map Candle.low
  let hi := highs.foldl max (highs.headD 0)
  let lo := lows.foldl min (lows.headD 0)
  let diff := hi - lo
  [("0%", lo), ("23.6%", hi - diff * (236/1000)),
   ("38.2%", hi - diff * (382/1000)), ("50%", hi - diff * (1/2)),
   ("61.8%", hi - diff * (618/1000)), ("78.6%", hi - diff * (786/1000)),
   ("100%", hi)]

/-! ## Order book walls (src/xrp2.py lines 110-115) -/

/-- Parse one raw level to `(price, quantity, notional)`. -/
def toLevel (pq : ℚ × ℚ) : ℚ × ℚ × ℚ := (pq.1, pq.2, pq.1 * pq.2)

/-- The comparison handed to the stable sort: descending notional
(`key=lambda z: z[2], reverse=True`). -/
def byNotional (a b : ℚ × ℚ × ℚ) : Bool := decide (b.2.2 ≤ a.2.2)

/-- Line 114: bids parsed to levels, kept only strictly below the current
price, stably sorted by descending notional, first 10 taken. -/
def top_b (bids : List (ℚ × ℚ)) (px : ℚ) : List (ℚ × ℚ × ℚ) :=
  (((bids.map toLevel).filter (fun x => decide (x.1 < px))).mergeSort
    byNotional).take 10

/-- Line 115: asks parsed to levels, kept only strictly above the current
price, stably sorted by descending notional, first 10 taken. -/
def top_a (asks : List (ℚ × ℚ)) (px : ℚ) : List (ℚ × ℚ × ℚ) :=
  (((asks.map toLevel).filter (fun x => decide (px < x.1))).mergeSort
    byNotional).take 10

/-- `sum(v for *_, v in walls)` (lines 125-126). -/
def wallSum (walls : List (ℚ × ℚ × ℚ)) : ℚ :=
  (walls.map (fun x => x.2.2)).sum

/-! ## Liquidity pressure (src/xrp2.py lines 129-134) -/

inductive Pressure where
  | buying
  | selling
  | balanced
deriving DecidableEq, Repr

/-- `if buy_liq > sell_liq * 1.1: ... elif sell_liq > buy_liq * 1.1: ...
else: ...` with `1.1 = 11/10`. -/
def pressureOf (b s : ℚ) : Pressure :=
  if s * (11/10) < b then .buying
  else if b * (11/10) < s then .selling
  else .balanced

/-! ## Liquidity wall path (src/xrp2.py lines 139-154) -/

/-- The label of a path point; the source formats it as `"Current"`,
`f"Buy @{price:.2f}"` or `f"Sell @{price:.2f}"` — the decimal rendering
of the price is not modelled, the carried price is. -/
inductive PathLabel where
  | current
  | buy (price : ℚ)
  | sell (price : ℚ)
deriving DecidableEq, Repr

/-- The loop of lines 142-154 over the remaining step indices `steps`
(the source runs `for i in range(1, 11)`).  `bos` is `b_or_s`; on a bid
turn with an unconsumed bid the price of that wall is emitted at
`t0 + i*5` minutes and the bid cursor advances, symmetrically for asks;
an exhausted side emits nothing but the turn still toggles. -/
def liqSteps (t0 : ℕ) (tb taW : List (ℚ × ℚ × ℚ)) :
    List ℕ → Bool → ℕ → ℕ → List (ℕ × ℚ × PathLabel)
  | [], _, _, _ => []
  | i :: rest, bos, bidx, aidx =>
    if bos then
      match tb[bidx]? with
      | some w => (t0 + i * 5, w.1, PathLabel.buy w.1) ::
          liqSteps t0 tb taW rest false (bidx + 1) aidx
      | none => liqSteps t0 tb taW rest false bidx aidx
    else
      match taW[aidx]? with
      | some w => (t0 + i * 5, w.1, PathLabel.sell w.1) ::
          liqSteps t0 tb taW rest true bidx (aidx + 1)
      | none => liqSteps t0 tb taW rest true bidx aidx

/-- `liq_path`: the `(latest timestamp, current price, "Current")` anchor
followed by the ten alternating steps. -/
def liq_path (t0 : ℕ) (px : ℚ) (tb taW : List (ℚ × ℚ × ℚ)) :
    List (ℕ × ℚ × PathLabel) :=
  (t0, px, PathLabel.current) :: liqSteps t0 tb taW (List.range' 1 10) true 0 0

/-! ## The whole invocation -/

/-- The results of the external fetches one invocation consumes.
`klines = none` models a non-list kline response, `livePrice = none` a
failed live-ticker fetch (the source then falls back to the last close);
a failed depth fetch is already its `.get(..., [])` default of empty
sides. -/
structure Env where
  klines : Option (List Candle)
  livePrice : Option ℚ
  bids : List (ℚ × ℚ)
  asks : List (ℚ × ℚ)
deriving DecidableEq, Repr

/-- The candle series: a non-list kline payload becomes the empty series
(src/xrp2.py lines 47-48). -/
def seriesOf (env : Env) : List Candle := env.klines.getD []

/-- The Close column. -/
def closesOf (env : Env) : List ℚ := (seriesOf env).map Candle.close

/-- `df["Close"].iloc[-1]`. -/
def lastCloseD (env : Env) : ℚ := (closesOf env).getLastD 0

/-- `last` (lines 66-72): the live ticker price, or the latest candle
close when the live fetch fails. -/
def currentPrice (env : Env) : ℚ := env.livePrice.getD (lastCloseD env)

/-- `df.index[-1]`, the latest candle timestamp. -/
def lastTimeD (env : Env) : ℕ := ((seriesOf env).map Candle.time).getLastD 0

/-- The three-element signal list of lines 85-89, in source order. -/
def signalsOf (env : Env) : List String :=
  [rsiSig (rsiLast (closesOf env)),
   smaSig (currentPrice env) (smaLast (closesOf env)),
   macdSig (macdHistLast (closesOf env))]

/-- Everything one successful invocation hands to the rendering layer. -/
structure Analysis where
  px : ℚ
  signals : List String
  fibLevels : List (String × ℚ)
  topB : List (ℚ × ℚ × ℚ)
  topA : List (ℚ × ℚ × ℚ)
  pressure : Pressure
  path : List (ℕ × ℚ × PathLabel)
deriving DecidableEq, Repr

/-- The single error the source ever stops on: `st.stop()` after an empty
candle frame (lines 58-60). -/
inductive AnalysisError where
  | dataUnavailable
deriving DecidableEq, Repr

/-- The computation that runs after the series is known non-empty. -/
def mkAnalysis (env : Env) : Analysis :=
  { px := currentPrice env
    signals := signalsOf env
    fibLevels := fib (seriesOf env)
    topB := top_b env.bids (currentPrice env)
    topA := top_a env.asks (currentPrice env)
    pressure := pressureOf (wallSum (top_b env.bids (currentPrice env)))
      (wallSum (top_a env.asks (currentPrice env)))
    path := liq_path (lastTimeD env) (currentPrice env)
      (top_b env.bids (currentPrice env)) (top_a env.asks (currentPrice env)) }

/-- One invocation of the script: stop with the data-unavailable error on
an empty candle series (lines 58-60), otherwise produce the analysis. -/
def run (env : Env) : Except AnalysisError Analysis :=
  if (seriesOf env).isEmpty then .error .dataUnavailable
  else .ok (mkAnalysis env)

/-! ## Generic list helpers -/

theorem headD_mem {l : List ℚ} (h : l ≠ []) : l.headD 0 ∈ l := by
  cases l with
  | nil => exact absurd rfl h
  | cons x xs => exact List.mem_cons_self x xs

theorem le_foldl_max (a : ℚ) (l : List ℚ) : a ≤ l.foldl max a := by
  induction l generalizing a with
  | nil => exact le_refl a
  | cons x xs ih => exact le_trans (le_max_left a x) (ih (max a x))

theorem mem_le_foldl_max {x : ℚ} {l : List ℚ} (hx : x ∈ l) (a : ℚ) :
    x ≤ l.foldl max a := by
  induction l generalizing a with
  | nil => cases hx
  | cons y ys ih =>
    rcases List.mem_cons.1 hx with rfl | h
    · exact le_trans (le_max_right a x) (le_foldl_max _ _)
    · exact ih h _

theorem foldl_max_mem (l : List ℚ) (a : ℚ) :
    l.foldl max a = a ∨ l.foldl max a ∈ l := by
  induction l generalizing a with
  | nil => exact Or.inl rfl
  | cons x xs ih =>
    rcases ih (max a x) with h | h
    · rcases max_choice a x with hm | hm
      · exact Or.inl (by rw [List.foldl_cons, h, hm])
      · refine Or.inr ?_
        rw [List.foldl_cons, h, hm]
        exact List.mem_cons_self x xs
    · exact Or.inr (List.mem_cons_of_mem _ h)

theorem foldl_min_le (a : ℚ) (l : List ℚ) : l.foldl min a ≤ a := by
  induction l generalizing a with
  | nil => exact le_refl a
  | cons x xs ih => exact le_trans (ih (min a x)) (min_le_left a x)

theorem foldl_min_le_mem {x : ℚ} {l : List ℚ} (hx : x ∈ l) (a : ℚ) :
    l.foldl min a ≤ x := by
  induction l generalizing a with
  | nil => cases hx
  | cons y ys ih =>
    rcases List.mem_cons.1 hx with rfl | h
    · exact le_trans (foldl_min_le (min a x) ys) (min_le_right a x)
    · exact ih h _

theorem foldl_min_mem (l : List ℚ) (a : ℚ) :
    l.foldl min a = a ∨ l.foldl min a ∈ l := by
  induction l generalizing a with
  | nil => exact Or.inl rfl
  | cons x xs ih =>
    rcases ih (min a x) with h | h
    · rcases min_choice a x with hm | hm
      · exact Or.inl (by rw [List.foldl_cons, h, hm])
      · refine Or.inr ?_
        rw [List.foldl_cons, h, hm]
        exact List.mem_cons_self x xs
    · exact Or.inr (List.mem_cons_of_mem _ h)

theorem lastN_ne_nil {α : Type} {n : ℕ} {l : List α} (hn : n ≠ 0)
    (hl : l ≠ []) : lastN n l ≠ [] := by
  have h1 : 0 < l.length := List.length_pos.2 hl
  have h2 : (lastN n l).length = l.length - (l.length - n) := by
    simp [lastN, List.length_drop]
  exact List.ne_nil_of_length_pos (by rw [h2]; omega)

/-! ## Claim C10: the symbol normalizer -/

/-- C10 counterexample: `clean_symbol` is not idempotent.  On the input
`"a usdt"` it returns `"A "` — the trailing space that preceded the
removed `"USDT"` survives, because the cut happens after the strip — and
a second application removes that space. -/
theorem clean_symbol_not_idempotent :
    clean_symbol (clean_symbol [97, 32, 117, 115, 100, 116]) ≠
      clean_symbol [97, 32, 117, 115, 100, 116] := by decide

/-- C10 (amended): the output of `clean_symbol` is always non-empty,
uppercase-fixed and contains neither `"USDT"` nor `"/"`, but it is not
always trimmed — it can keep edge whitespace that preceded a removed
`"USDT"`/`"/"` suffix.  A second application is exactly a strip of the
first output, so `clean_symbol` is idempotent exactly on the inputs
whose output is already trimmed. -/
theorem clean_symbol_amended (raw : List ℕ) :
    (clean_symbol raw ≠ [] ∧
     containsSub usdtTok (clean_symbol raw) = false ∧
     containsSub slashTok (clean_symbol raw) = false ∧
     (∀ n ∈ clean_symbol raw, upperCh n = n)) ∧
    clean_symbol (clean_symbol raw) = pyStrip (clean_symbol raw) ∧
    (clean_symbol (clean_symbol raw) = clean_symbol raw ↔
      pyStrip (clean_symbol raw) = clean_symbol raw) := by
  refine ⟨⟨clean_symbol_ne_nil raw, clean_symbol_usdt_free raw,
    clean_symbol_slash_free raw, clean_symbol_upper_fix raw⟩,
    clean_symbol_second_strip raw, ?_, ?_⟩
  · intro h
    rw [← clean_symbol_second_strip raw]
    exact h
  · intro h
    rw [clean_symbol_second_strip raw]
    exact h

/-- C10 witness: on `"xrp"` the output is trimmed and the amended
idempotency applies. -/
theorem clean_symbol_amended_witness :
    clean_symbol (clean_symbol [120, 114, 112]) = clean_symbol [120, 114, 112] :=
  (clean_symbol_amended [120, 114, 112]).2.2.mpr (by decide)

/-! ## Claim C5: the liquidity pressure classifier -/

theorem pressureOf_cases (b s : ℚ) :
    (pressureOf b s = Pressure.buying ↔ s * (11/10) < b) ∧
    (pressureOf b s = Pressure.selling ↔
      ¬ s * (11/10) < b ∧ b * (11/10) < s) ∧
    (pressureOf b s = Pressure.balanced ↔
      ¬ s * (11/10) < b ∧ ¬ b * (11/10) < s) := by
  by_cases h1 : s * (11/10) < b
  · simp [pressureOf, h1]
  · by_cases h2 : b * (11/10) < s
    · simp [pressureOf, h1, h2]
    · simp [pressureOf, h1, h2]

/-- C5: for any two wall lists, the pressure classification is the ordered
three-way branch on the notional sums with the fixed `1.1` dead-zone
multiplier; `buy = 110, sell = 100` is balanced, `buy = 111, sell = 100`
is more-buying, and two zero sums are balanced. -/
theorem pressure_spec :
    (∀ tb taW : List (ℚ × ℚ × ℚ),
      (pressureOf (wallSum tb) (wallSum taW) = Pressure.buying ↔
        wallSum taW * (11/10) < wallSum tb) ∧
      (pressureOf (wallSum tb) (wallSum taW) = Pressure.selling ↔
        ¬ wallSum taW * (11/10) < wallSum tb ∧
          wallSum tb * (11/10) < wallSum taW) ∧
      (pressureOf (wallSum tb) (wallSum taW) = Pressure.balanced ↔
        ¬ wallSum taW * (11/10) < wallSum tb ∧
          ¬ wallSum tb * (11/10) < wallSum taW)) ∧
    pressureOf 110 100 = Pressure.balanced ∧
    pressureOf 111 100 = Pressure.buying ∧
    pressureOf 0 0 = Pressure.balanced :=
  ⟨fun tb taW => pressureOf_cases (wallSum tb) (wallSum taW),
   by with_unfolding_all decide,
   by with_unfolding_all decide,
   by with_unfolding_all decide⟩

/-- C5 witness: the empty book classifies as balanced via the theorem. -/
theorem pressure_spec_witness :
    pressureOf (wallSum []) (wallSum []) = Pressure.balanced :=
  (pressure_spec.1 [] []).2.2.mpr
    ⟨by simp [wallSum], by simp [wallSum]⟩

/-! ## Claim C7: empty or malformed kline fetch -/

/-- C7: a kline payload that is not a list (`none`) or has zero rows
yields the empty series and the run terminates with the data-unavailable
error before any indicator, level, wall or path point is computed. -/
theorem data_unavailable_on_empty (env : Env)
    (h : env.klines = none ∨ env.klines = some []) :
    run env = .error .dataUnavailable := by
  rcases h with h | h <;> simp [run, seriesOf, h]

/-- C7 witness: the fully failed fetch environment stops with the error. -/
theorem data_unavailable_on_empty_witness :
    run ⟨none, none, [], []⟩ = .error .dataUnavailable :=
  data_unavailable_on_empty ⟨none, none, [], []⟩ (Or.inl rfl)

/-! ## Claim C3: Fibonacci retracement levels -/

/-- The two-candle window of the worked example in the spec: window high 110,
window low 90. -/
def demoCandles : List Candle :=
  [⟨0, 100, 110, 95, 100, 0⟩, ⟨1, 100, 105, 90, 100, 0⟩]

/-- C3: for every non-empty series, `fib` takes the trailing window of the
last `min 30 length` candles, computes the window High maximum `hi` and
Low minimum `lo`, and emits exactly the seven labelled levels in fixed
order, the intermediate ones at `hi - (hi - lo) * pct` and the `100%`
level at `hi` itself; on a window with `hi = 110, lo = 90` the values are
`90, 105.28, 102.36, 100, 97.64, 94.28, 110`. -/
theorem fib_levels :
    (∀ candles : List Candle, candles ≠ [] →
      ∃ hi lo : ℚ,
        hi ∈ (lastN 30 candles).map Candle.high ∧
        (∀ y ∈ (lastN 30 candles).map Candle.high, y ≤ hi) ∧
        lo ∈ (lastN 30 candles).map Candle.low ∧
        (∀ y ∈ (lastN 30 candles).map Candle.low, lo ≤ y) ∧
        fib candles =
          [("0%", lo), ("23.6%", hi - (hi - lo) * (236/1000)),
           ("38.2%", hi - (hi - lo) * (382/1000)),
           ("50%", hi - (hi - lo) * (1/2)),
           ("61.8%", hi - (hi - lo) * (618/1000)),
           ("78.6%", hi - (hi - lo) * (786/1000)), ("100%", hi)]) ∧
    fib demoCandles =
      [("0%", 90), ("23.6%", 10528/100), ("38.2%", 10236/100),
       ("50%", 100), ("61.8%", 9764/100), ("78.6%", 9428/100),
       ("100%", 110)] := by
  constructor
  · intro c hc
    have hsub : lastN 30 c ≠ [] := lastN_ne_nil (by omega) hc
    have hh : (lastN 30 c).map Candle.high ≠ [] := by
      simpa using hsub
    have hl : (lastN 30 c).map Candle.low ≠ [] := by
      simpa using hsub
    refine ⟨_, _, ?_, ?_, ?_, ?_, rfl⟩
    · rcases foldl_max_mem ((lastN 30 c).map Candle.high)
        (((lastN 30 c).map Candle.high).headD 0) with h | h
      · rw [h]; exact headD_mem hh
      · exact h
    · intro y hy; exact mem_le_foldl_max hy _
    · rcases foldl_min_mem ((lastN 30 c).map Candle.low)
        (((lastN 30 c).map Candle.low).headD 0) with h | h
      · rw [h]; exact headD_mem hl
      · exact h
    · intro y hy; exact foldl_min_le_mem hy _
  · norm_num [fib, demoCandles, lastN, max_def, min_def]

/-- C3 witness: the theorem applied to the worked example window. -/
theorem fib_levels_witness :
    ∃ hi lo : ℚ,
      hi ∈ (lastN 30 demoCandles).map Candle.high ∧
      (∀ y ∈ (lastN 30 demoCandles).map Candle.high, y ≤ hi) ∧
      lo ∈ (lastN 30 demoCandles).map Candle.low ∧
      (∀ y ∈ (lastN 30 demoCandles).map Candle.low, lo ≤ y) ∧
      fib demoCandles =
        [("0%", lo), ("23.6%", hi - (hi - lo) * (236/1000)),
         ("38.2%", hi - (hi - lo) * (382/1000)),
         ("50%", hi - (hi - lo) * (1/2)),
         ("61.8%", hi - (hi - lo) * (618/1000)),
         ("78.6%", hi - (hi - lo) * (786/1000)), ("100%", hi)] :=
  fib_levels.1 demoCandles (by decide)

/-! ## Claim C4: order-book wall extraction -/

theorem byNotional_trans (a b c : ℚ × ℚ × ℚ) (hab : byNotional a b = true)
    (hbc : byNotional b c = true) : byNotional a c = true :=
  decide_eq_true (le_trans (of_decide_eq_true hbc) (of_decide_eq_true hab))

theorem byNotional_total (a b : ℚ × ℚ × ℚ) :
    (byNotional a b || byNotional b a) = true := by
  rcases le_total b.2.2 a.2.2 with h | h <;> simp [byNotional, h]

theorem top_b_mem (bids : List (ℚ × ℚ)) (px : ℚ) (x : ℚ × ℚ × ℚ)
    (hx : x ∈ top_b bids px) :
    x.1 < px ∧ x.2.2 = x.1 * x.2.1 ∧ (x.1, x.2.1) ∈ bids := by
  have h1 := List.take_subset 10 _ hx
  have h2 := (List.mergeSort_perm
    ((bids.map toLevel).filter (fun y => decide (y.1 < px))) byNotional).subset h1
  have h3 := List.mem_filter.1 h2
  rcases List.mem_map.1 h3.1 with ⟨pq, hpq, rfl⟩
  exact ⟨of_decide_eq_true h3.2, rfl, hpq⟩

theorem top_a_mem (asks : List (ℚ × ℚ)) (px : ℚ) (x : ℚ × ℚ × ℚ)
    (hx : x ∈ top_a asks px) :
    px < x.1 ∧ x.2.2 = x.1 * x.2.1 ∧ (x.1, x.2.1) ∈ asks := by
  have h1 := List.take_subset 10 _ hx
  have h2 := (List.mergeSort_perm
    ((asks.map toLevel).filter (fun y => decide (px < y.1))) byNotional).subset h1
  have h3 := List.mem_filter.1 h2
  rcases List.mem_map.1 h3.1 with ⟨pq, hpq, rfl⟩
  exact ⟨of_decide_eq_true h3.2, rfl, hpq⟩

theorem top_b_sorted (bids : List (ℚ × ℚ)) (px : ℚ) :
    (top_b bids px).Pairwise (fun a b => b.2.2 ≤ a.2.2) := by
  have h := List.sorted_mergeSort byNotional_trans byNotional_total
    ((bids.map toLevel).filter (fun y => decide (y.1 < px)))
  exact List.Pairwise.sublist (List.take_sublist 10 _)
    (h.imp fun hab => of_decide_eq_true hab)

theorem top_a_sorted (asks : List (ℚ × ℚ)) (px : ℚ) :
    (top_a asks px).Pairwise (fun a b => b.2.2 ≤ a.2.2) := by
  have h := List.sorted_mergeSort byNotional_trans byNotional_total
    ((asks.map toLevel).filter (fun y => decide (px < y.1)))
  exact List.Pairwise.sublist (List.take_sublist 10 _)
    (h.imp fun hab => of_decide_eq_true hab)

theorem top_b_stable (bids : List (ℚ × ℚ)) (px : ℚ) (c : List (ℚ × ℚ × ℚ))
    (hsub : c.Sublist ((bids.map toLevel).filter (fun y => decide (y.1 < px))))
    (hsort : c.Pairwise (fun a b => b.2.2 ≤ a.2.2)) :
    c.Sublist (((bids.map toLevel).filter
      (fun y => decide (y.1 < px))).mergeSort byNotional) :=
  List.sublist_mergeSort byNotional_trans byNotional_total
    (hsort.imp fun hab => decide_eq_true hab) hsub

/-- C4: on each side the raw levels are parsed to
`(price, quantity, price * quantity)` triples; bids are kept only
strictly below and asks only strictly above the current price; each kept
side is sorted by descending notional — stably, so that an
already-ordered subsequence of equal-notional entries survives as a
subsequence — and truncated to the first 10, with fewer than 10 being
acceptable.  In the concrete book, the bid at 6 with the largest
notional (600) and the bid exactly at the current price 5 are discarded,
and the three equal-notional bids keep their input order. -/
theorem walls_spec :
    (∀ (bids : List (ℚ × ℚ)) (px : ℚ) (x : ℚ × ℚ × ℚ), x ∈ top_b bids px →
      x.1 < px ∧ x.2.2 = x.1 * x.2.1 ∧ (x.1, x.2.1) ∈ bids) ∧
    (∀ (asks : List (ℚ × ℚ)) (px : ℚ) (x : ℚ × ℚ × ℚ), x ∈ top_a asks px →
      px < x.1 ∧ x.2.2 = x.1 * x.2.1 ∧ (x.1, x.2.1) ∈ asks) ∧
    (∀ (bids : List (ℚ × ℚ)) (px : ℚ),
      (top_b bids px).Pairwise (fun a b => b.2.2 ≤ a.2.2)) ∧
    (∀ (asks : List (ℚ × ℚ)) (px : ℚ),
      (top_a asks px).Pairwise (fun a b => b.2.2 ≤ a.2.2)) ∧
    (∀ (bids : List (ℚ × ℚ)) (px : ℚ),
      (top_b bids px).length =
        min 10 ((bids.map toLevel).filter (fun y => decide (y.1 < px))).length) ∧
    (∀ (asks : List (ℚ × ℚ)) (px : ℚ),
      (top_a asks px).length =
        min 10 ((asks.map toLevel).filter (fun y => decide (px < y.1))).length) ∧
    (∀ (bids : List (ℚ × ℚ)) (px : ℚ) (c : List (ℚ × ℚ × ℚ)),
      c.Sublist ((bids.map toLevel).filter (fun y => decide (y.1 < px))) →
      c.Pairwise (fun a b => b.2.2 ≤ a.2.2) →
      c.Sublist (((bids.map toLevel).filter
        (fun y => decide (y.1 < px))).mergeSort byNotional)) ∧
    top_b [(6, 100), (3, 2), (2, 3), (5, 50), (1, 6)] 5 =
      [(3, 2, 6), (2, 3, 6), (1, 6, 6)] ∧
    top_a [(6, 1), (4, 100), (7, 2)] 5 = [(7, 2, 14), (6, 1, 6)] := by
  refine ⟨top_b_mem, top_a_mem, top_b_sorted, top_a_sorted, ?_, ?_,
    top_b_stable, ?_, ?_⟩
  · intro bids px
    simp [top_b, List.length_take, List.length_mergeSort]
  · intro asks px
    simp [top_a, List.length_take, List.length_mergeSort]
  · with_unfolding_all decide
  · with_unfolding_all decide

/-- C4 witness: a one-level book below the current price is kept with its
notional. -/
theorem walls_spec_witness :
    ((3 : ℚ), (2 : ℚ), (6 : ℚ)).1 < 5 ∧
    ((3 : ℚ), (2 : ℚ), (6 : ℚ)).2.2 =
      ((3 : ℚ), (2 : ℚ), (6 : ℚ)).1 * ((3 : ℚ), (2 : ℚ), (6 : ℚ)).2.1 ∧
    (((3 : ℚ), (2 : ℚ), (6 : ℚ)).1, ((3 : ℚ), (2 : ℚ), (6 : ℚ)).2.1) ∈
      [((3 : ℚ), (2 : ℚ))] :=
  walls_spec.1 [(3, 2)] 5 (3, 2, 6) (by with_unfolding_all decide)

/-! ## Claim C6: the liquidity wall path -/

theorem liqSteps_time (t0 : ℕ) (tb taW : List (ℚ × ℚ × ℚ))
    (steps : List ℕ) :
    ∀ bos bidx aidx p, p ∈ liqSteps t0 tb taW steps bos bidx aidx →
      ∃ i ∈ steps, p.1 = t0 + i * 5 := by
  induction steps with
  | nil =>
    intro bos bidx aidx p hp
    simp [liqSteps] at hp
  | cons i rest ih =>
    intro bos bidx aidx p hp
    cases bos with
    | true =>
      rw [liqSteps] at hp
      cases htb : tb[bidx]? with
      | some w =>
        rw [htb] at hp
        rcases List.mem_cons.1 hp with rfl | hp2
        · exact ⟨i, List.mem_cons_self i rest, rfl⟩
        · rcases ih false (bidx + 1) aidx p hp2 with ⟨j, hj, he⟩
          exact ⟨j, List.mem_cons_of_mem i hj, he⟩
      | none =>
        rw [htb] at hp
        rcases ih false bidx aidx p hp with ⟨j, hj, he⟩
        exact ⟨j, List.mem_cons_of_mem i hj, he⟩
    | false =>
      rw [liqSteps] at hp
      cases hta : taW[aidx]? with
      | some w =>
        rw [hta] at hp
        rcases List.mem_cons.1 hp with rfl | hp2
        · exact ⟨i, List.mem_cons_self i rest, rfl⟩
        · rcases ih true bidx (aidx + 1) p hp2 with ⟨j, hj, he⟩
          exact ⟨j, List.mem_cons_of_mem i hj, he⟩
      | none =>
        rw [hta] at hp
        rcases ih true bidx aidx p hp with ⟨j, hj, he⟩
        exact ⟨j, List.mem_cons_of_mem i hj, he⟩

theorem liqSteps_pairwise (t0 : ℕ) (tb taW : List (ℚ × ℚ × ℚ))
    (steps : List ℕ) (hpw : steps.Pairwise (· < ·)) :
    ∀ bos bidx aidx,
      (liqSteps t0 tb taW steps bos bidx aidx).Pairwise
        (fun p q => p.1 < q.1) := by
  induction steps with
  | nil =>
    intro bos bidx aidx
    simp [liqSteps]
  | cons i rest ih =>
    intro bos bidx aidx
    have hi : ∀ j ∈ rest, i < j := (List.pairwise_cons.1 hpw).1
    have hrest := (List.pairwise_cons.1 hpw).2
    have hhead : ∀ bos2 bidx2 aidx2 q,
        q ∈ liqSteps t0 tb taW rest bos2 bidx2 aidx2 →
        t0 + i * 5 < q.1 := by
      intro bos2 bidx2 aidx2 q hq
      rcases liqSteps_time t0 tb taW rest bos2 bidx2 aidx2 q hq with
        ⟨j, hj, he⟩
      have := hi j hj
      omega
    cases bos with
    | true =>
      rw [liqSteps]
      cases htb : tb[bidx]? with
      | some w =>
        exact List.pairwise_cons.2
          ⟨fun q hq => hhead _ _ _ q hq, ih hrest false (bidx + 1) aidx⟩
      | none => exact ih hrest false bidx aidx
    | false =>
      rw [liqSteps]
      cases hta : taW[aidx]? with
      | some w =>
        exact List.pairwise_cons.2
          ⟨fun q hq => hhead _ _ _ q hq, ih hrest true bidx (aidx + 1)⟩
      | none => exact ih hrest true bidx aidx

theorem liqSteps_length (t0 : ℕ) (tb taW : List (ℚ × ℚ × ℚ))
    (steps : List ℕ) :
    ∀ bos bidx aidx,
      (liqSteps t0 tb taW steps bos bidx aidx).length ≤ steps.length := by
  induction steps with
  | nil =>
    intro bos bidx aidx
    simp [liqSteps]
  | cons i rest ih =>
    intro bos bidx aidx
    cases bos with
    | true =>
      rw [liqSteps]
      cases htb : tb[bidx]? with
      | some w => simpa using ih false (bidx + 1) aidx
      | none => exact le_trans (ih false bidx aidx) (Nat.le_succ _)
    | false =>
      rw [liqSteps]
      cases hta : taW[aidx]? with
      | some w => simpa using ih true bidx (aidx + 1)
      | none => exact le_trans (ih true bidx aidx) (Nat.le_succ _)

/-- C6: the projected path starts with the
`(latest timestamp, current price, Current)` anchor; every later point
sits at `t0 + i*5` minutes for a step index `1 ≤ i ≤ 10`; the timestamps
are strictly increasing; the construction stops after the fixed ten-step
budget (at most 11 points) however many walls remain; and on a book with
three bid walls and one ask wall the strict alternation consumes
bid/ask/bid, skips the exhausted ask turn while still toggling, and then
emits the remaining bid. -/
theorem liq_path_spec :
    (∀ (t0 : ℕ) (px : ℚ) (tb taW : List (ℚ × ℚ × ℚ)),
      (liq_path t0 px tb taW).head? = some (t0, px, PathLabel.current) ∧
      (liq_path t0 px tb taW).Pairwise (fun p q => p.1 < q.1) ∧
      (liq_path t0 px tb taW).length ≤ 11 ∧
      (∀ p ∈ liqSteps t0 tb taW (List.range' 1 10) true 0 0,
        ∃ i, 1 ≤ i ∧ i ≤ 10 ∧ p.1 = t0 + i * 5)) ∧
    liq_path 0 15 [(10, 1, 10), (9, 1, 9), (8, 1, 8)] [(20, 1, 20)] =
      [(0, 15, PathLabel.current), (5, 10, PathLabel.buy 10),
       (10, 20, PathLabel.sell 20), (15, 9, PathLabel.buy 9),
       (25, 8, PathLabel.buy 8)] := by
  constructor
  · intro t0 px tb taW
    refine ⟨rfl, ?_, ?_, ?_⟩
    · refine List.pairwise_cons.2 ⟨?_, ?_⟩
      · intro q hq
        rcases liqSteps_time t0 tb taW (List.range' 1 10) true 0 0 q hq with
          ⟨j, hj, he⟩
        have hj1 := List.mem_range'_1.1 hj
        show t0 < q.1
        omega
      · exact liqSteps_pairwise t0 tb taW (List.range' 1 10)
          (by decide) true 0 0
    · have h := liqSteps_length t0 tb taW (List.range' 1 10) true 0 0
      simp only [liq_path, List.length_cons]
      simp only [List.length_range'] at h
      omega
    · intro p hp
      rcases liqSteps_time t0 tb taW (List.range' 1 10) true 0 0 p hp with
        ⟨j, hj, he⟩
      have hj1 := List.mem_range'_1.1 hj
      exact ⟨j, by omega, by omega, he⟩
  · with_unfolding_all decide

/-- C6 witness: the path of the empty book is the anchor alone, within
the step budget. -/
theorem liq_path_spec_witness : (liq_path 0 1 [] []).length ≤ 11 :=
  (liq_path_spec.1 0 1 [] []).2.2.1

/-! ## Concrete environments -/

/-- A series whose candles all carry the given closes (High/Low/Open set
to the same value; the fields are irrelevant to the signal claims). -/
def flatSeries (closes : List ℚ) : List Candle :=
  closes.map (fun c => ⟨0, c, c, c, c, 0⟩)

/-- Five candles: shorter than every indicator window. -/
def envShort : Env := ⟨some (flatSeries [1, 2, 3, 2, 1]), none, [], []⟩

/-- Twenty constant candles (SMA20 defined, value 1) with a live ticker
price of 100. -/
def envLive : Env := ⟨some (flatSeries (List.replicate 20 1)), some 100, [], []⟩

/-- Fifteen candles climbing by 14 per minute: every delta is a gain, so
the latest RSI is exactly 100. -/
def envRsi : Env :=
  ⟨some (flatSeries [0, 14, 28, 42, 56, 70, 84, 98, 112, 126, 140, 154,
    168, 182, 196]), none, [], []⟩

/-- Thirty-four constant candles: the MACD histogram is defined and 0. -/
def envMacd : Env := ⟨some (flatSeries (List.replicate 34 1)), none, [], []⟩

/-- A non-empty series makes the run succeed with the analysis record. -/
theorem run_ok {env : Env} (h : seriesOf env ≠ []) :
    run env = .ok (mkAnalysis env) := by
  rw [run, if_neg]
  simpa [List.isEmpty_iff] using h

/-- The payload of a successful run is the analysis record. -/
theorem run_some {env : Env} {a : Analysis} (hrun : run env = .ok a) :
    a = mkAnalysis env := by
  rw [run] at hrun
  split at hrun
  · exact absurd hrun (by simp)
  · injection hrun with h
    exact h.symm

/-! ## Claim C1: short series and undefined indicators -/

/-- C1: on a five-candle series every one of the three latest indicator
values is undefined, yet the source does not stop with an
insufficient-history error: the NaN comparisons silently resolve and the
run completes, deriving the signal list
`[RSI: HOLD, SMA: SELL, MACD: SELL]`. -/
theorem short_series_signals :
    (closesOf envShort).length = 5 ∧
    rsiLast (closesOf envShort) = none ∧
    smaLast (closesOf envShort) = none ∧
    macdHistLast (closesOf envShort) = none ∧
    (run envShort).map Analysis.signals =
      Except.ok ["RSI: HOLD", "SMA: SELL", "MACD: SELL"] := by
  refine ⟨by with_unfolding_all decide, by with_unfolding_all decide,
    by with_unfolding_all decide, by with_unfolding_all decide, ?_⟩
  have hrun : run envShort = .ok (mkAnalysis envShort) :=
    run_ok (by with_unfolding_all decide)
  rw [hrun]
  with_unfolding_all rfl

/-! ## Claim C2: the SMA signal comparison price -/

/-- C2 counterexample: the SMA signal does not compare the latest
Close of the latest candle against the SMA — it compares `last`, the live ticker
price.  With twenty constant closes of 1 (so SMA20 = 1 and latest
Close = 1) and a live price of 100, the run emits `SMA: BUY` although
the latest Close is not above the SMA. -/
theorem sma_signal_close_counterexample :
    ¬ (∀ (env : Env) (a : Analysis) (v : ℚ),
        20 ≤ (closesOf env).length → run env = .ok a →
        smaLast (closesOf env) = some v →
        (a.signals.getD 1 "" = "SMA: BUY" ↔ v < lastCloseD env)) := by
  intro hclaim
  have hrun : run envLive = .ok (mkAnalysis envLive) :=
    run_ok (by with_unfolding_all decide)
  have h1 := (hclaim envLive (mkAnalysis envLive) 1
    (by with_unfolding_all decide) hrun
    (by with_unfolding_all decide)).mp (by with_unfolding_all decide)
  exact absurd h1 (by with_unfolding_all decide)

/-- C2 (amended): for every run where the latest SMA20 is defined, the
SMA signal is BUY exactly when the current price — the live ticker
price, falling back to the latest Close only when the live fetch fails —
is strictly above the latest SMA20 value, and SELL otherwise; there is
no HOLD case. -/
theorem sma_signal_spec (env : Env) (a : Analysis) (v : ℚ)
    (hrun : run env = .ok a) (hsma : smaLast (closesOf env) = some v) :
    (a.signals.getD 1 "" = "SMA: BUY" ↔ v < currentPrice env) ∧
    (a.signals.getD 1 "" = "SMA: SELL" ↔ ¬ v < currentPrice env) := by
  have ha := run_some hrun
  subst ha
  have hs : (mkAnalysis env).signals.getD 1 "" =
      smaSig (currentPrice env) (smaLast (closesOf env)) := rfl
  rw [hs, hsma]
  by_cases hc : v < currentPrice env
  · simp [smaSig, hc]
  · simp [smaSig, hc]

/-- C2 witness: on the live-price environment the amended rule yields
BUY. -/
theorem sma_signal_spec_witness :
    (mkAnalysis envLive).signals.getD 1 "" = "SMA: BUY" :=
  (sma_signal_spec envLive (mkAnalysis envLive) 1
    (run_ok (by with_unfolding_all decide))
    (by with_unfolding_all decide)).1.mpr (by with_unfolding_all decide)

/-! ## Claim C8: the RSI signal thresholds -/

/-- C8: whenever the latest RSI value is defined, the RSI signal is BUY
exactly when RSI < 30, SELL exactly when RSI > 70 and HOLD otherwise;
the boundary values map to HOLD, and 29.9 / 70 / 70.1 map to
BUY / HOLD / SELL. -/
theorem rsi_signal_spec :
    (∀ (env : Env) (a : Analysis) (v : ℚ), run env = .ok a →
      rsiLast (closesOf env) = some v →
      ((a.signals.getD 0 "" = "RSI: BUY" ↔ v < 30) ∧
       (a.signals.getD 0 "" = "RSI: SELL" ↔ 70 < v) ∧
       (a.signals.getD 0 "" = "RSI: HOLD" ↔ ¬ v < 30 ∧ ¬ 70 < v))) ∧
    rsiSig (some (299/10)) = "RSI: BUY" ∧
    rsiSig (some 70) = "RSI: HOLD" ∧
    rsiSig (some (701/10)) = "RSI: SELL" := by
  constructor
  · intro env a v hrun hrsi
    have ha := run_some hrun
    subst ha
    have hs : (mkAnalysis env).signals.getD 0 "" =
        rsiSig (rsiLast (closesOf env)) := rfl
    rw [hs, hrsi]
    by_cases h1 : v < 30
    · have h2 : ¬ 70 < v := by linarith
      simp [rsiSig, h1, h2]
    · by_cases h2 : 70 < v
      · simp [rsiSig, h1, h2]
      · simp [rsiSig, h1, h2]
  · refine ⟨?_, ?_, ?_⟩ <;> norm_num [rsiSig]

/-- C8 witness: the all-gains series has RSI 100 and the run emits
`RSI: SELL`. -/
theorem rsi_signal_spec_witness :
    (mkAnalysis envRsi).signals.getD 0 "" = "RSI: SELL" :=
  (rsi_signal_spec.1 envRsi (mkAnalysis envRsi) 100
    (run_ok (by with_unfolding_all decide))
    (by with_unfolding_all decide)).2.1.mpr (by norm_num)

/-! ## Claim C9: the MACD histogram and signal -/

/-- C9: whenever the latest MACD histogram value is defined, it equals
the latest MACD line (EMA12 minus EMA26 of the closes) minus the latest
signal line (EMA9 of the MACD line), and the MACD signal is BUY exactly
when that value is strictly positive and SELL otherwise — zero maps to
SELL. -/
theorem macd_hist_spec (env : Env) (a : Analysis) (v : ℚ)
    (hrun : run env = .ok a) (hh : macdHistLast (closesOf env) = some v) :
    v = macdLineLast (closesOf env) - macdSignalLast (closesOf env) ∧
    (a.signals.getD 2 "" = "MACD: BUY" ↔ 0 < v) ∧
    (a.signals.getD 2 "" = "MACD: SELL" ↔ v ≤ 0) := by
  have ha := run_some hrun
  subst ha
  have hv : v = macdLineLast (closesOf env) - macdSignalLast (closesOf env) := by
    rw [macdHistLast] at hh
    split at hh
    · exact absurd hh (by simp)
    · injection hh with h
      exact h.symm
  refine ⟨hv, ?_⟩
  have hs : (mkAnalysis env).signals.getD 2 "" =
      macdSig (macdHistLast (closesOf env)) := rfl
  rw [hs, hh]
  by_cases hc : 0 < v
  · have h2 : ¬ v ≤ 0 := not_le.2 hc
    simp [macdSig, hc, h2]
  · have h2 : v ≤ 0 := not_lt.1 hc
    simp [macdSig, hc, h2]

/-- C9 witness: the constant series has histogram 0 and the run emits
`MACD: SELL`. -/
theorem macd_hist_spec_witness :
    (mkAnalysis envMacd).signals.getD 2 "" = "MACD: SELL" :=
  (macd_hist_spec envMacd (mkAnalysis envMacd) 0
    (run_ok (by with_unfolding_all decide))
    (by with_unfolding_all decide)).2.2.mpr le_rfl

end XrpTracker
